import Mathlib

/-!
Verification of the artist-clustering pipeline (`artist_clustering.py`, the
single-profile variant, and `modified_artist_clustering.py`, the multi-profile
variant) against its natural-language specification.

Shallow embedding conventions:
* A record ("row") is a finite partial map from field names to values,
  embedded as `String → Option Value`.
* A field value is either a rational number (Python floats are embedded as
  exact rationals) or a string that cannot be interpreted as a number
  (`Value.str`); numeric-looking strings are embedded as `Value.num`, since
  `float(...)` coerces them exactly as it coerces floats.
* Python exceptions (`ZeroDivisionError`, `KeyError`, `TypeError`) are
  embedded as `Option`: `none` means the operation raises and produces no
  result.
* The Gurobi solver is external to the repository.  The binary program that
  `cluster_artists` hands to it is embedded explicitly (`feasible`,
  `objective`, `optimal`); the solver is treated as the spec directs, as an
  abstract capability returning an optimal feasible 0/1 solution or
  reporting infeasibility.  Theorems about returned assignments quantify
  over any solution satisfying the constraints the code registers.
-/

/-- A field value of a record: a number, or a string that cannot be
interpreted as numeric (for strings that `float` accepts, the numeric
embedding `Value.num` is used, mirroring `load_data`'s coercion). -/
inductive Value where
  | num (q : ℚ)
  | str (s : String)
deriving DecidableEq

/-- `float(v)` in `calculate_distance`: succeeds exactly on numeric values. -/
def Value.toFloat? : Value → Option ℚ
  | Value.num q => some q
  | Value.str _ => none

/-- A record: a partial map from field name to value (a Python dict). -/
abbrev Row : Type := String → Option Value

/-- A record with no fields. -/
def emptyRow : Row := fun _ => none

/-- `row[k] = v`: dict update. -/
def Row.set (r : Row) (k : String) (v : Value) : Row :=
  fun k' => if k' = k then some v else r k'

/-- `row.get(k, 0)`: the value at `k`, defaulting to `0` when absent. -/
def Row.getD0 (r : Row) (k : String) : Value :=
  (r k).getD (Value.num 0)

/-- True unless the row holds a value at `k` that `float` rejects. -/
def Row.numericAt (r : Row) (k : String) : Bool :=
  match r k with
  | some (Value.str _) => false
  | _ => true

namespace AC
/-! `artist_clustering.py`: the single-profile, weighted variant. -/

/-- `weights.get(feature, 1)` (line 50). -/
def weightOf (weights : List (String × ℚ)) (f : String) : ℚ :=
  (weights.lookup f).getD 1

/-- One addend of the weighted Manhattan distance (lines 50-56): the
weighted absolute deviation for a numeric (or absent, treated as 0) value,
and the penalty `weight * ideal_value` when `float` raises `ValueError`. -/
def term (weights : List (String × ℚ)) (row : Row) (f : String) (ideal : ℚ) : ℚ :=
  match (Row.getD0 row f).toFloat? with
  | some v => weightOf weights f * |v - ideal|
  | none => weightOf weights f * ideal

/-- `calculate_distance(row, ideal, weights)` (lines 47-60). -/
def calculate_distance (row : Row) (ideal : List (String × ℚ))
    (weights : List (String × ℚ)) : ℚ :=
  ideal.foldl (fun d fi => d + term weights row fi.1 fi.2) 0

/-- `calculate_all_distances(data, ideal, weights)` (lines 62-65). -/
def calculate_all_distances (data : List Row) (ideal : List (String × ℚ))
    (weights : List (String × ℚ)) : List Row :=
  data.map (fun row =>
    Row.set row "Distance_to_Ideal" (Value.num (calculate_distance row ideal weights)))

end AC

namespace MAC
/-! `modified_artist_clustering.py`: the multi-profile, unweighted variant. -/

/-- One addend of the unweighted Manhattan distance (lines 73-78): the
absolute deviation for a numeric (or absent, treated as 0) value, and the
penalty `ideal_value` when `float` raises `ValueError`. -/
def term (row : Row) (f : String) (ideal : ℚ) : ℚ :=
  match (Row.getD0 row f).toFloat? with
  | some v => |v - ideal|
  | none => ideal

/-- `calculate_distance(row, profile)` (lines 70-82). -/
def calculate_distance (row : Row) (profile : List (String × ℚ)) : ℚ :=
  profile.foldl (fun d fi => d + term row fi.1 fi.2) 0

/-- One named profile of the `profiles` registry (lines 20-66): its ideal
feature values and its scalar `weight` (which, notably, nothing reads). -/
structure ProfileEntry where
  profile : List (String × ℚ)
  weight : ℚ
deriving DecidableEq

/-- The profile registry: insertion-ordered mapping name to entry. -/
abbrev Registry : Type := List (String × ProfileEntry)

/-- The field name `f'Distance_to_{cluster_name}'`. -/
def distKey (name : String) : String := "Distance_to_" ++ name

/-- The inner loop of `calculate_all_distances` (lines 94-96): store each
profile's raw distance on the row, in registry order, mutating as it goes. -/
def setDistances (registry : Registry) (row : Row) : Row :=
  registry.foldl
    (fun r e => Row.set r (distKey e.1) (Value.num (calculate_distance r e.2.profile)))
    row

/-- Read a distance field as a number (a non-number or missing field would
make `normalize_distances` or the model construction raise). -/
def getNum? (r : Row) (k : String) : Option ℚ :=
  match r k with
  | some (Value.num q) => some q
  | _ => none

/-- `max(distances) if distances else 1` (line 87). -/
def maxD : List ℚ → ℚ
  | [] => 1
  | x :: xs => xs.foldl max x

/-- `[row[f'Distance_to_{name}'] for row in data]` (line 86): the profile's
distance column; `none` embeds the exception raised on a missing or
non-numeric distance field. -/
def getCol (data : List Row) (k : String) : Option (List ℚ) :=
  match data with
  | [] => some []
  | r :: rest =>
    match getNum? r k, getCol rest k with
    | some q, some qs => some (q :: qs)
    | _, _ => none

/-- The inner loop of `normalize_distances` (lines 88-89): divide every
row's distance field at `k` by `m`.  `none` embeds an exception (missing or
non-numeric field). -/
def scaleCol (m : ℚ) (k : String) : List Row → Option (List Row)
  | [] => some []
  | r :: rest =>
    match getNum? r k, scaleCol m k rest with
    | some q, some ds => some (Row.set r k (Value.num (q / m)) :: ds)
    | _, _ => none

/-- One iteration of the `normalize_distances` outer loop (lines 86-89):
divide one profile's distance column by its maximum.  `none` embeds an
exception, notably the `ZeroDivisionError` raised when the column's maximum
is 0 (the divisor falls back to 1 only when the dataset is empty). -/
def normalizeOne (data : List Row) (name : String) : Option (List Row) :=
  match getCol data (distKey name) with
  | none => none
  | some col =>
    if maxD col = 0 then none
    else scaleCol (maxD col) (distKey name) data

/-- `normalize_distances(data, profiles)` (lines 84-89): normalize each
registered profile's column in turn. -/
def normalize_distances (data : List Row) : Registry → Option (List Row)
  | [] => some data
  | e :: rest =>
    match normalizeOne data e.1 with
    | some d => normalize_distances d rest
    | none => none

/-- `calculate_all_distances(data, profiles)` (lines 92-98): store every
profile's raw distance on every row, then normalize each column. -/
def calculate_all_distances (data : List Row) (registry : Registry) : Option (List Row) :=
  normalize_distances (data.map (setDistances registry)) registry

/-- `min_artists = max(1, len(data) // len(profiles))` (line 122). -/
def minArtists (N K : ℕ) : ℕ := max 1 (N / K)

/-- The constraint of line 119: row `i` of the 0/1 solution has exactly one
cluster variable set. -/
def exactlyOne (K : ℕ) (xi : ℕ → Bool) : Prop :=
  ((Finset.range K).filter (fun j => xi j = true)).card = 1

/-- `Σ_i x[i][j]`: how many records the solution puts in cluster `j`. -/
def clusterCount (N : ℕ) (x : ℕ → ℕ → Bool) (j : ℕ) : ℕ :=
  ((Finset.range N).filter (fun i => x i j = true)).card

/-- The feasible region of the binary program `cluster_artists` builds
(lines 117-124): every record in exactly one cluster, and every cluster at
least `min_artists` records. -/
def feasible (N K : ℕ) (x : ℕ → ℕ → Bool) : Prop :=
  (∀ i < N, exactlyOne K (x i)) ∧ ∀ j < K, minArtists N K ≤ clusterCount N x j

/-- The additive objective bias of line 110: `10 if cluster_name == "Not
Ready" else 0`, for the cluster names in registry order. -/
def penalty (names : List String) (j : ℕ) : ℚ :=
  if names.getD j "" = "Not Ready" then 10 else 0

/-- The objective of lines 108-115: total selected coefficient, where the
coefficient of `x[i][j]` is the record's distance for cluster `j` plus the
cluster's penalty. -/
def objective (N K : ℕ) (D : ℕ → ℕ → ℚ) (p : ℕ → ℚ) (x : ℕ → ℕ → Bool) : ℚ :=
  ∑ i in Finset.range N, ∑ j in Finset.range K, if x i j then D i j + p j else 0

/-- What the solver contract returns on line 127: a feasible solution of
minimal objective value. -/
def optimal (N K : ℕ) (D : ℕ → ℕ → ℚ) (p : ℕ → ℚ) (x : ℕ → ℕ → Bool) : Prop :=
  feasible N K x ∧ ∀ y, feasible N K y → objective N K D p x ≤ objective N K D p y

/-- A distance field read as the model coefficient `data[i][f'Distance_to_
{cluster_name}']` (line 110); 0 stands in for the exception a malformed row
would raise while the model is built. -/
def getNumD (r : Row) (k : String) : ℚ := (getNum? r k).getD 0

/-- The coefficient matrix of the objective: record `i`'s stored distance
for the `j`-th registered cluster name. -/
def distMatrix (data : List Row) (names : List String) : ℕ → ℕ → ℚ :=
  fun i j => getNumD (data.getD i emptyRow) (distKey (names.getD j ""))

/-- The inner extraction loop of lines 132-135: scan the cluster names in
order, starting at column `j`, and label the row with the first cluster
whose variable is set (no label at all if none is). -/
def assignRowAux (xi : ℕ → Bool) : ℕ → List String → Row → Row
  | _, [], row => row
  | j, n :: rest, row =>
    if xi j then Row.set row "Cluster" (Value.str n)
    else assignRowAux xi (j + 1) rest row

/-- The extraction loop of `cluster_artists` (lines 129-137): given the 0/1
solution `x` the solver returned, attach a `Cluster` label to every row. -/
def cluster_artists (data : List Row) (registry : Registry) (x : ℕ → ℕ → Bool) :
    List Row :=
  (List.range data.length).map
    (fun i => assignRowAux (x i) 0 (registry.map (fun e => e.1)) (data.getD i emptyRow))

end MAC

/-- The numeric value `float(row.get(f, 0))` yields on a numeric or absent
field (and the 0 the penalty branch is compared against for a non-numeric
one). -/
def numValD (r : Row) (f : String) : ℚ := ((Row.getD0 r f).toFloat?).getD 0

instance (K : ℕ) (xi : ℕ → Bool) : Decidable (MAC.exactlyOne K xi) := by
  unfold MAC.exactlyOne; infer_instance

instance (N K : ℕ) (x : ℕ → ℕ → Bool) : Decidable (MAC.feasible N K x) := by
  unfold MAC.feasible; infer_instance

/-! ### Basic lemmas about rows and folds -/

theorem Row.set_self (r : Row) (k : String) (v : Value) : (Row.set r k v) k = some v := by
  simp [Row.set]

theorem Row.set_ne (r : Row) (k k' : String) (v : Value) (h : k' ≠ k) :
    (Row.set r k v) k' = r k' := by
  simp [Row.set, h]

theorem foldl_add_eq_sum (g : (String × ℚ) → ℚ) (l : List (String × ℚ)) (a : ℚ) :
    l.foldl (fun d fi => d + g fi) a = a + (l.map g).sum := by
  induction l generalizing a with
  | nil => simp
  | cons x xs ih => simp only [List.foldl_cons, List.map_cons, List.sum_cons, ih, add_assoc]

theorem list_sum_eq_zero_iff (l : List ℚ) (h : ∀ x ∈ l, 0 ≤ x) :
    l.sum = 0 ↔ ∀ x ∈ l, x = 0 := by
  induction l with
  | nil => simp
  | cons a t ih =>
    have ha : 0 ≤ a := h a (List.mem_cons_self a t)
    have ht : ∀ x ∈ t, 0 ≤ x := fun x hx => h x (List.mem_cons_of_mem _ hx)
    have hts : 0 ≤ t.sum := List.sum_nonneg ht
    rw [List.sum_cons]
    constructor
    · intro h0
      have hpair := (add_eq_zero_iff_of_nonneg ha hts).mp h0
      intro x hx
      rcases List.mem_cons.mp hx with rfl | hx
      · exact hpair.1
      · exact (ih ht).mp hpair.2 x hx
    · intro hall
      have ha0 : a = 0 := hall a (List.mem_cons_self a t)
      have ht0 : t.sum = 0 := (ih ht).mpr fun x hx => hall x (List.mem_cons_of_mem _ hx)
      rw [ha0, ht0, add_zero]

/-! ### The distance functions as sums over the profile's features -/

theorem AC.weighted_distance_eq (row : Row) (ideal weights : List (String × ℚ)) :
    AC.calculate_distance row ideal weights
      = (ideal.map (fun fi => AC.term weights row fi.1 fi.2)).sum := by
  unfold AC.calculate_distance
  rw [foldl_add_eq_sum, zero_add]

theorem MAC.calculate_distance_eq (row : Row) (profile : List (String × ℚ)) :
    MAC.calculate_distance row profile
      = (profile.map (fun fi => MAC.term row fi.1 fi.2)).sum := by
  unfold MAC.calculate_distance
  rw [foldl_add_eq_sum, zero_add]

theorem MAC.term_of_numeric (row : Row) (f : String) (ideal : ℚ)
    (h : Row.numericAt row f = true) :
    MAC.term row f ideal = |numValD row f - ideal| := by
  unfold MAC.term numValD Row.numericAt Row.getD0 at *
  cases hv : row f with
  | none => simp [hv, Value.toFloat?]
  | some v =>
    cases v with
    | num q => simp [hv, Value.toFloat?]
    | str s => rw [hv] at h; simp at h

theorem AC.wterm_of_numeric (weights : List (String × ℚ)) (row : Row) (f : String)
    (ideal : ℚ) (h : Row.numericAt row f = true) :
    AC.term weights row f ideal = AC.weightOf weights f * |numValD row f - ideal| := by
  unfold AC.term numValD Row.numericAt Row.getD0 at *
  cases hv : row f with
  | none => simp [hv, Value.toFloat?]
  | some v =>
    cases v with
    | num q => simp [hv, Value.toFloat?]
    | str s => rw [hv] at h; simp at h

theorem MAC.term_set_zero_of_none (row : Row) (f : String) (hf : row f = none)
    (g : String) (ideal : ℚ) :
    MAC.term (Row.set row f (Value.num 0)) g ideal = MAC.term row g ideal := by
  by_cases hgf : g = f
  · subst hgf
    unfold MAC.term Row.getD0
    rw [Row.set_self, hf]
    simp [Value.toFloat?]
  · unfold MAC.term Row.getD0
    rw [Row.set_ne row f g _ hgf]

theorem AC.wterm_set_zero_of_none (weights : List (String × ℚ)) (row : Row) (f : String)
    (hf : row f = none) (g : String) (ideal : ℚ) :
    AC.term weights (Row.set row f (Value.num 0)) g ideal = AC.term weights row g ideal := by
  by_cases hgf : g = f
  · subst hgf
    unfold AC.term Row.getD0
    rw [Row.set_self, hf]
    simp [Value.toFloat?]
  · unfold AC.term Row.getD0
    rw [Row.set_ne row f g _ hgf]

theorem MAC.term_of_nonnumeric (row : Row) (f : String) (ideal : ℚ)
    (h : Row.numericAt row f = false) :
    MAC.term row f ideal = ideal := by
  unfold Row.numericAt at h
  unfold MAC.term Row.getD0
  cases hv : row f with
  | none => rw [hv] at h; simp at h
  | some v =>
    cases v with
    | num q => rw [hv] at h; simp at h
    | str s => simp [hv, Value.toFloat?]

theorem AC.wterm_of_nonnumeric (weights : List (String × ℚ)) (row : Row) (f : String)
    (ideal : ℚ) (h : Row.numericAt row f = false) :
    AC.term weights row f ideal = AC.weightOf weights f * ideal := by
  unfold Row.numericAt at h
  unfold AC.term Row.getD0
  cases hv : row f with
  | none => rw [hv] at h; simp at h
  | some v =>
    cases v with
    | num q => rw [hv] at h; simp at h
    | str s => simp [hv, Value.toFloat?]

/-! ### Claim C3: the Manhattan distance formula and the missing-feature default -/

/-- C3: for every record whose values at the profile's features are numeric,
the distance is the (weighted, or unweighted in the multi-profile variant)
Manhattan distance, summing `weight(f) * |record_value(f) - ideal(f)|` over
the profile's features with the record value defaulting to 0 when absent;
and a record lacking a feature gets exactly the distance of the same record
carrying an explicit 0 there. -/
theorem c3_manhattan_distance_formula (row : Row) (ideal weights : List (String × ℚ))
    (hnum : ∀ fi ∈ ideal, Row.numericAt row fi.1 = true) :
    AC.calculate_distance row ideal weights
        = (ideal.map (fun fi => AC.weightOf weights fi.1 * |numValD row fi.1 - fi.2|)).sum
    ∧ MAC.calculate_distance row ideal
        = (ideal.map (fun fi => |numValD row fi.1 - fi.2|)).sum
    ∧ (∀ f, row f = none →
        AC.calculate_distance (Row.set row f (Value.num 0)) ideal weights
            = AC.calculate_distance row ideal weights
        ∧ MAC.calculate_distance (Row.set row f (Value.num 0)) ideal
            = MAC.calculate_distance row ideal) := by
  refine ⟨?_, ?_, ?_⟩
  · rw [AC.weighted_distance_eq]
    exact congrArg List.sum
      (List.map_congr_left fun fi hfi => AC.wterm_of_numeric weights row fi.1 fi.2 (hnum fi hfi))
  · rw [MAC.calculate_distance_eq]
    exact congrArg List.sum
      (List.map_congr_left fun fi hfi => MAC.term_of_numeric row fi.1 fi.2 (hnum fi hfi))
  · intro f hf
    constructor
    · rw [AC.weighted_distance_eq, AC.weighted_distance_eq]
      exact congrArg List.sum
        (List.map_congr_left fun fi _ => AC.wterm_set_zero_of_none weights row f hf fi.1 fi.2)
    · rw [MAC.calculate_distance_eq, MAC.calculate_distance_eq]
      exact congrArg List.sum
        (List.map_congr_left fun fi _ => MAC.term_set_zero_of_none row f hf fi.1 fi.2)

/-- A small concrete record, `{"a": 5}`. -/
def rowA : Row := Row.set emptyRow "a" (Value.num 5)

/-- Witness for C3 at the record `{"a": 5}`, the profile
`{"a": 3, "b": 2}` and the weight table `{"a": 2}`. -/
theorem c3_witness :
    (∀ fi ∈ ([("a", 3), ("b", 2)] : List (String × ℚ)), Row.numericAt rowA fi.1 = true)
    ∧ (AC.calculate_distance rowA [("a", 3), ("b", 2)] [("a", 2)]
        = (([("a", 3), ("b", 2)] : List (String × ℚ)).map
            (fun fi => AC.weightOf [("a", 2)] fi.1 * |numValD rowA fi.1 - fi.2|)).sum
      ∧ MAC.calculate_distance rowA [("a", 3), ("b", 2)]
        = (([("a", 3), ("b", 2)] : List (String × ℚ)).map
            (fun fi => |numValD rowA fi.1 - fi.2|)).sum
      ∧ (∀ f, rowA f = none →
          AC.calculate_distance (Row.set rowA f (Value.num 0)) [("a", 3), ("b", 2)] [("a", 2)]
              = AC.calculate_distance rowA [("a", 3), ("b", 2)] [("a", 2)]
          ∧ MAC.calculate_distance (Row.set rowA f (Value.num 0)) [("a", 3), ("b", 2)]
              = MAC.calculate_distance rowA [("a", 3), ("b", 2)])) :=
  ⟨by decide, c3_manhattan_distance_formula rowA [("a", 3), ("b", 2)] [("a", 2)] (by decide)⟩

/-! ### Claim C5: non-negativity and the zero-distance characterisation -/

/-- A record carrying a value `float` rejects: `{"f": "n/a"}`. -/
def rowBad : Row := Row.set emptyRow "f" (Value.str "n/a")

/-- C5 as stated is false: for the record `{"f": "n/a"}` and the profile
`{"f": -1}` (the unweighted variant, so every weight is the positive real
1), the penalty branch adds the ideal value itself and the distance is -1,
which is negative. -/
theorem c5_counterexample :
    MAC.calculate_distance rowBad [("f", -1)] < 0 := by
  have h : MAC.calculate_distance rowBad [("f", -1)] = -1 := by
    rw [MAC.calculate_distance_eq]
    simp only [List.map_cons, List.map_nil, List.sum_cons, List.sum_nil]
    rw [MAC.term_of_nonnumeric rowBad "f" (-1) (by decide)]
    ring
  rw [h]; norm_num

/-- C5 amended: restricted to records whose values at the profile's
features are numeric (the counterexample forces excluding the non-numeric
penalty branch), the distance is non-negative whenever every feature weight
is positive, and it is zero iff the record's value (0 when absent) equals
the profile's ideal value on every feature the profile defines; both the
weighted and the unweighted variant. -/
theorem c5_distance_nonneg_and_zero_iff (row : Row) (ideal weights : List (String × ℚ))
    (hw : ∀ fi ∈ ideal, 0 < AC.weightOf weights fi.1)
    (hnum : ∀ fi ∈ ideal, Row.numericAt row fi.1 = true) :
    0 ≤ AC.calculate_distance row ideal weights
    ∧ (AC.calculate_distance row ideal weights = 0 ↔ ∀ fi ∈ ideal, numValD row fi.1 = fi.2)
    ∧ 0 ≤ MAC.calculate_distance row ideal
    ∧ (MAC.calculate_distance row ideal = 0 ↔ ∀ fi ∈ ideal, numValD row fi.1 = fi.2) := by
  have hac : AC.calculate_distance row ideal weights
      = (ideal.map (fun fi => AC.weightOf weights fi.1 * |numValD row fi.1 - fi.2|)).sum := by
    rw [AC.weighted_distance_eq]
    exact congrArg List.sum
      (List.map_congr_left fun fi hfi => AC.wterm_of_numeric weights row fi.1 fi.2 (hnum fi hfi))
  have hmac : MAC.calculate_distance row ideal
      = (ideal.map (fun fi => |numValD row fi.1 - fi.2|)).sum := by
    rw [MAC.calculate_distance_eq]
    exact congrArg List.sum
      (List.map_congr_left fun fi hfi => MAC.term_of_numeric row fi.1 fi.2 (hnum fi hfi))
  have hacnn : ∀ z ∈ ideal.map (fun fi => AC.weightOf weights fi.1 * |numValD row fi.1 - fi.2|),
      0 ≤ z := by
    intro z hz
    rcases List.mem_map.mp hz with ⟨fi, hfi, rfl⟩
    exact mul_nonneg (le_of_lt (hw fi hfi)) (abs_nonneg _)
  have hmacnn : ∀ z ∈ ideal.map (fun fi => |numValD row fi.1 - fi.2|), 0 ≤ z := by
    intro z hz
    rcases List.mem_map.mp hz with ⟨fi, _, rfl⟩
    exact abs_nonneg _
  refine ⟨?_, ?_, ?_, ?_⟩
  · rw [hac]; exact List.sum_nonneg hacnn
  · rw [hac, list_sum_eq_zero_iff _ hacnn]
    constructor
    · intro h fi hfi
      have := h _ (List.mem_map.mpr ⟨fi, hfi, rfl⟩)
      have habs : |numValD row fi.1 - fi.2| = 0 := by
        rcases mul_eq_zero.mp this with hwz | hz
        · exact absurd hwz (ne_of_gt (hw fi hfi))
        · exact hz
      have : numValD row fi.1 - fi.2 = 0 := abs_eq_zero.mp habs
      linarith
    · intro h z hz
      rcases List.mem_map.mp hz with ⟨fi, hfi, rfl⟩
      have : numValD row fi.1 - fi.2 = 0 := by rw [h fi hfi]; ring
      rw [this, abs_zero, mul_zero]
  · rw [hmac]; exact List.sum_nonneg hmacnn
  · rw [hmac, list_sum_eq_zero_iff _ hmacnn]
    constructor
    · intro h fi hfi
      have := h _ (List.mem_map.mpr ⟨fi, hfi, rfl⟩)
      have : numValD row fi.1 - fi.2 = 0 := abs_eq_zero.mp this
      linarith
    · intro h z hz
      rcases List.mem_map.mp hz with ⟨fi, hfi, rfl⟩
      have : numValD row fi.1 - fi.2 = 0 := by rw [h fi hfi]; ring
      rw [this, abs_zero]

/-- Witness for the amended C5 at the record `{"a": 5}`, the profile
`{"a": 3, "b": 2}` and the weight table `{"a": 2}`. -/
theorem c5_witness :
    ((∀ fi ∈ ([("a", 3), ("b", 2)] : List (String × ℚ)), 0 < AC.weightOf [("a", 2)] fi.1)
      ∧ ∀ fi ∈ ([("a", 3), ("b", 2)] : List (String × ℚ)), Row.numericAt rowA fi.1 = true)
    ∧ (0 ≤ AC.calculate_distance rowA [("a", 3), ("b", 2)] [("a", 2)]
      ∧ (AC.calculate_distance rowA [("a", 3), ("b", 2)] [("a", 2)] = 0
          ↔ ∀ fi ∈ ([("a", 3), ("b", 2)] : List (String × ℚ)), numValD rowA fi.1 = fi.2)
      ∧ 0 ≤ MAC.calculate_distance rowA [("a", 3), ("b", 2)]
      ∧ (MAC.calculate_distance rowA [("a", 3), ("b", 2)] = 0
          ↔ ∀ fi ∈ ([("a", 3), ("b", 2)] : List (String × ℚ)), numValD rowA fi.1 = fi.2)) :=
  ⟨⟨by decide, by decide⟩,
    c5_distance_nonneg_and_zero_iff rowA [("a", 3), ("b", 2)] [("a", 2)]
      (by decide) (by decide)⟩

/-! ### Claim C6: the fail-soft penalty for non-numeric values -/

/-- C6 as stated is false: for the record `{"f": "n/a"}` and the profile
`{"f": -1}`, the penalty term is the ideal value -1, while the record
carrying an explicit 0 gets `|0 - (-1)| = 1`, so the total distances
differ. -/
theorem c6_counterexample :
    MAC.calculate_distance rowBad [("f", -1)]
      ≠ MAC.calculate_distance (Row.set rowBad "f" (Value.num 0)) [("f", -1)] := by
  have h1 : MAC.calculate_distance rowBad [("f", -1)] = -1 := by
    rw [MAC.calculate_distance_eq]
    simp only [List.map_cons, List.map_nil, List.sum_cons, List.sum_nil]
    rw [MAC.term_of_nonnumeric rowBad "f" (-1) (by decide)]
    ring
  have h2 : MAC.calculate_distance (Row.set rowBad "f" (Value.num 0)) [("f", -1)] = 1 := by
    rw [MAC.calculate_distance_eq]
    simp only [List.map_cons, List.map_nil, List.sum_cons, List.sum_nil]
    rw [MAC.term_of_numeric (Row.set rowBad "f" (Value.num 0)) "f" (-1) (by decide)]
    have : numValD (Row.set rowBad "f" (Value.num 0)) "f" = 0 := by decide
    rw [this]
    norm_num
  rw [h1, h2]; norm_num

/-- C6 amended: when a record's value at feature `f` cannot be interpreted
as numeric, the distance computation does not raise (the embedding is a
total function): the term for `f` becomes the penalty `weight(f) *
ideal(f)` (just `ideal(f)` in the unweighted variant), and the total
distance equals that of the same record carrying an explicit 0 at `f`
provided the ideal values at `f` are non-negative (the counterexample
forces that restriction, which the shipped profiles all satisfy). -/
theorem c6_nonnumeric_penalty (row : Row) (ideal weights : List (String × ℚ)) (f : String)
    (hf : Row.numericAt row f = false)
    (hpos : ∀ fi ∈ ideal, fi.1 = f → 0 ≤ fi.2) :
    (∀ i : ℚ, AC.term weights row f i = AC.weightOf weights f * i ∧ MAC.term row f i = i)
    ∧ AC.calculate_distance row ideal weights
        = AC.calculate_distance (Row.set row f (Value.num 0)) ideal weights
    ∧ MAC.calculate_distance row ideal
        = MAC.calculate_distance (Row.set row f (Value.num 0)) ideal := by
  have hterm : ∀ fi ∈ ideal,
      AC.term weights row fi.1 fi.2 = AC.term weights (Row.set row f (Value.num 0)) fi.1 fi.2
      ∧ MAC.term row fi.1 fi.2 = MAC.term (Row.set row f (Value.num 0)) fi.1 fi.2 := by
    intro fi hfi
    by_cases hgf : fi.1 = f
    · have hnum0 : Row.numericAt (Row.set row f (Value.num 0)) f = true := by
        unfold Row.numericAt
        rw [Row.set_self]
      have hval0 : numValD (Row.set row f (Value.num 0)) f = 0 := by
        unfold numValD Row.getD0
        rw [Row.set_self]
        simp [Value.toFloat?]
      have hge : 0 ≤ fi.2 := hpos fi hfi hgf
      constructor
      · rw [hgf, AC.wterm_of_nonnumeric weights row f fi.2 hf,
          AC.wterm_of_numeric weights (Row.set row f (Value.num 0)) f fi.2 hnum0]
        rw [hval0, zero_sub, abs_neg, abs_of_nonneg hge]
      · rw [hgf, MAC.term_of_nonnumeric row f fi.2 hf,
          MAC.term_of_numeric (Row.set row f (Value.num 0)) f fi.2 hnum0]
        rw [hval0, zero_sub, abs_neg, abs_of_nonneg hge]
    · constructor
      · unfold AC.term Row.getD0
        rw [Row.set_ne row f fi.1 _ hgf]
      · unfold MAC.term Row.getD0
        rw [Row.set_ne row f fi.1 _ hgf]
  refine ⟨?_, ?_, ?_⟩
  · intro i
    exact ⟨AC.wterm_of_nonnumeric weights row f i hf, MAC.term_of_nonnumeric row f i hf⟩
  · rw [AC.weighted_distance_eq, AC.weighted_distance_eq]
    exact congrArg List.sum (List.map_congr_left fun fi hfi => (hterm fi hfi).1)
  · rw [MAC.calculate_distance_eq, MAC.calculate_distance_eq]
    exact congrArg List.sum (List.map_congr_left fun fi hfi => (hterm fi hfi).2)

/-- Witness for the amended C6 at the record `{"f": "n/a"}`, the profile
`{"f": 4, "g": 2}` and the weight table `{"f": 3}`. -/
theorem c6_witness :
    (Row.numericAt rowBad "f" = false
      ∧ ∀ fi ∈ ([("f", 4), ("g", 2)] : List (String × ℚ)), fi.1 = "f" → 0 ≤ fi.2)
    ∧ ((∀ i : ℚ, AC.term [("f", 3)] rowBad "f" i = AC.weightOf [("f", 3)] "f" * i
          ∧ MAC.term rowBad "f" i = i)
      ∧ AC.calculate_distance rowBad [("f", 4), ("g", 2)] [("f", 3)]
          = AC.calculate_distance (Row.set rowBad "f" (Value.num 0)) [("f", 4), ("g", 2)] [("f", 3)]
      ∧ MAC.calculate_distance rowBad [("f", 4), ("g", 2)]
          = MAC.calculate_distance (Row.set rowBad "f" (Value.num 0)) [("f", 4), ("g", 2)]) :=
  ⟨⟨by decide, by decide⟩,
    c6_nonnumeric_penalty rowBad [("f", 4), ("g", 2)] [("f", 3)] "f" (by decide) (by decide)⟩

/-! ### Lemmas about the list maximum and the normalization loops -/

theorem le_foldl_max (xs : List ℚ) (a : ℚ) : a ≤ xs.foldl max a := by
  induction xs generalizing a with
  | nil => exact le_refl a
  | cons x t ih => exact le_trans (le_max_left a x) (ih (max a x))

theorem mem_le_foldl_max (xs : List ℚ) (a q : ℚ) (hq : q ∈ xs) : q ≤ xs.foldl max a := by
  induction xs generalizing a with
  | nil => cases hq
  | cons x t ih =>
    rcases List.mem_cons.mp hq with rfl | h
    · exact le_trans (le_max_right a q) (le_foldl_max t (max a q))
    · exact ih (max a x) h

theorem foldl_max_mem (xs : List ℚ) (a : ℚ) : xs.foldl max a = a ∨ xs.foldl max a ∈ xs := by
  induction xs generalizing a with
  | nil => exact Or.inl rfl
  | cons x t ih =>
    rcases ih (max a x) with h | h
    · rcases max_choice a x with hm | hm
      · exact Or.inl (by rw [List.foldl_cons, h, hm])
      · exact Or.inr (by rw [List.foldl_cons, h, hm]; exact List.mem_cons_self x t)
    · exact Or.inr (List.mem_cons_of_mem x h)

theorem foldl_max_div (xs : List ℚ) (a m : ℚ) (hm : 0 < m) :
    (xs.map (fun q => q / m)).foldl max (a / m) = xs.foldl max a / m := by
  induction xs generalizing a with
  | nil => rfl
  | cons x t ih =>
    simp only [List.map_cons, List.foldl_cons]
    rw [max_div_div_right (le_of_lt hm) a x]
    exact ih (max a x)

theorem le_maxD (l : List ℚ) (q : ℚ) (hq : q ∈ l) : q ≤ MAC.maxD l := by
  cases l with
  | nil => cases hq
  | cons x t =>
    rcases List.mem_cons.mp hq with rfl | h
    · exact le_foldl_max t q
    · exact mem_le_foldl_max t x q h

theorem maxD_mem (l : List ℚ) (h : l ≠ []) : MAC.maxD l ∈ l := by
  cases l with
  | nil => exact absurd rfl h
  | cons x t =>
    rcases foldl_max_mem t x with hm | hm
    · rw [MAC.maxD, hm]; exact List.mem_cons_self x t
    · exact List.mem_cons_of_mem x hm

theorem maxD_map_div (l : List ℚ) (m : ℚ) (hm : 0 < m) (hl : l ≠ []) :
    MAC.maxD (l.map (fun q => q / m)) = MAC.maxD l / m := by
  cases l with
  | nil => exact absurd rfl hl
  | cons x t =>
    simp only [List.map_cons, MAC.maxD]
    exact foldl_max_div t x m hm

theorem getNum?_set_self (r : Row) (k : String) (q : ℚ) :
    MAC.getNum? (Row.set r k (Value.num q)) k = some q := by
  unfold MAC.getNum?
  rw [Row.set_self]

theorem getCol_length (k : String) :
    ∀ (data : List Row) (col : List ℚ), MAC.getCol data k = some col →
      col.length = data.length := by
  intro data
  induction data with
  | nil => intro col h; simp [MAC.getCol] at h; subst h; rfl
  | cons r rest ih =>
    intro col h
    cases hq : MAC.getNum? r k with
    | none => rw [MAC.getCol, hq] at h; cases h
    | some q =>
      cases hrest : MAC.getCol rest k with
      | none => rw [MAC.getCol, hq, hrest] at h; cases h
      | some qs =>
        rw [MAC.getCol, hq, hrest] at h
        cases h
        simp [ih qs hrest]

theorem scaleCol_eq (m : ℚ) (k : String) :
    ∀ (data : List Row) (col : List ℚ), MAC.getCol data k = some col →
      MAC.scaleCol m k data
        = some (List.zipWith (fun r q => Row.set r k (Value.num (q / m))) data col) := by
  intro data
  induction data with
  | nil => intro col h; simp [MAC.getCol] at h; subst h; rfl
  | cons r rest ih =>
    intro col h
    cases hq : MAC.getNum? r k with
    | none => rw [MAC.getCol, hq] at h; cases h
    | some q =>
      cases hrest : MAC.getCol rest k with
      | none => rw [MAC.getCol, hq, hrest] at h; cases h
      | some qs =>
        rw [MAC.getCol, hq, hrest] at h
        cases h
        rw [MAC.scaleCol, hq, ih qs hrest]
        rfl

theorem getCol_zipWith (m : ℚ) (k : String) :
    ∀ (data : List Row) (col : List ℚ), MAC.getCol data k = some col →
      MAC.getCol (List.zipWith (fun r q => Row.set r k (Value.num (q / m))) data col) k
        = some (col.map (fun q => q / m)) := by
  intro data
  induction data with
  | nil => intro col h; simp [MAC.getCol] at h; subst h; rfl
  | cons r rest ih =>
    intro col h
    cases hq : MAC.getNum? r k with
    | none => rw [MAC.getCol, hq] at h; cases h
    | some q =>
      cases hrest : MAC.getCol rest k with
      | none => rw [MAC.getCol, hq, hrest] at h; cases h
      | some qs =>
        rw [MAC.getCol, hq, hrest] at h
        cases h
        simp only [List.zipWith_cons_cons, List.map_cons]
        rw [MAC.getCol, getNum?_set_self, ih qs hrest]

/-! ### Claim C2: the normalization division guard -/

/-- A one-record dataset whose only distance column is constantly 0. -/
def dataZero : List Row := [Row.set emptyRow (MAC.distKey "P") (Value.num 0)]

/-- A one-profile registry with an empty feature set. -/
def regP : MAC.Registry := [("P", ⟨[], 0⟩)]

/-- C2 as stated is false: on a non-empty dataset whose maximum raw
distance for profile `P` is 0, normalization does not fall back to divisor
1 — it divides by the maximum unconditionally (`max(distances) if distances
else 1` only guards the empty dataset) and raises `ZeroDivisionError`,
embedded as `none`. -/
theorem c2_counterexample :
    MAC.normalize_distances dataZero regP = none
    ∧ MAC.getCol dataZero (MAC.distKey "P") = some [0] := by
  constructor
  · rfl
  · rfl

/-- C2 amended: normalization divides each profile's column by the maximum
observed for that profile, with divisor 1 only when the dataset is empty
(where there is nothing to divide); when the dataset is non-empty and the
maximum is 0 the operation fails with `ZeroDivisionError` instead of
dividing by 1; in the remaining case (non-negative raw distances, non-zero
maximum) every value of the column ends in [0, 1] and the new maximum is
exactly 1. -/
theorem c2_normalization_division_guard (data : List Row) (name : String) (col : List ℚ)
    (hcol : MAC.getCol data (MAC.distKey name) = some col)
    (hnn : ∀ q ∈ col, 0 ≤ q) :
    (data = [] → MAC.normalizeOne data name = some [])
    ∧ (MAC.maxD col = 0 → MAC.normalizeOne data name = none)
    ∧ (MAC.maxD col ≠ 0 →
        ∃ out, MAC.normalizeOne data name = some out
          ∧ MAC.getCol out (MAC.distKey name) = some (col.map (fun q => q / MAC.maxD col))
          ∧ (∀ q ∈ col.map (fun q => q / MAC.maxD col), 0 ≤ q ∧ q ≤ 1)
          ∧ (data ≠ [] → MAC.maxD (col.map (fun q => q / MAC.maxD col)) = 1)) := by
  refine ⟨?_, ?_, ?_⟩
  · intro h
    subst h
    rfl
  · intro h0
    simp only [MAC.normalizeOne, hcol]
    rw [if_pos h0]
  · intro h0
    have hm : 0 < MAC.maxD col := by
      by_cases hc : col = []
      · subst hc; norm_num [MAC.maxD]
      · exact lt_of_le_of_ne (hnn _ (maxD_mem col hc)) (Ne.symm h0)
    refine ⟨List.zipWith (fun r q => Row.set r (MAC.distKey name) (Value.num (q / MAC.maxD col)))
        data col, ?_, ?_, ?_, ?_⟩
    · simp only [MAC.normalizeOne, hcol]
      rw [if_neg h0]
      exact scaleCol_eq (MAC.maxD col) (MAC.distKey name) data col hcol
    · exact getCol_zipWith (MAC.maxD col) (MAC.distKey name) data col hcol
    · intro q hq
      rcases List.mem_map.mp hq with ⟨q0, hq0, rfl⟩
      exact ⟨div_nonneg (hnn q0 hq0) (le_of_lt hm),
        (div_le_one hm).mpr (le_maxD col q0 hq0)⟩
    · intro hne
      have hcolne : col ≠ [] := by
        intro hc
        subst hc
        have := getCol_length (MAC.distKey name) data [] hcol
        cases data with
        | nil => exact hne rfl
        | cons r rest => simp at this
      rw [maxD_map_div col (MAC.maxD col) hm hcolne]
      exact div_self (ne_of_gt hm)

/-- A two-record dataset whose `P` column holds 1 and 2. -/
def dataP12 : List Row :=
  [Row.set emptyRow (MAC.distKey "P") (Value.num 1),
   Row.set emptyRow (MAC.distKey "P") (Value.num 2)]

/-- Witness for the amended C2 at a two-record dataset with raw distances
1 and 2 for profile `P`. -/
theorem c2_witness :
    (MAC.getCol dataP12 (MAC.distKey "P") = some [1, 2]
      ∧ ∀ q ∈ ([1, 2] : List ℚ), 0 ≤ q)
    ∧ ((dataP12 = [] → MAC.normalizeOne dataP12 "P" = some [])
      ∧ (MAC.maxD [1, 2] = 0 → MAC.normalizeOne dataP12 "P" = none)
      ∧ (MAC.maxD [1, 2] ≠ 0 →
          ∃ out, MAC.normalizeOne dataP12 "P" = some out
            ∧ MAC.getCol out (MAC.distKey "P")
                = some (([1, 2] : List ℚ).map (fun q => q / MAC.maxD [1, 2]))
            ∧ (∀ q ∈ ([1, 2] : List ℚ).map (fun q => q / MAC.maxD [1, 2]), 0 ≤ q ∧ q ≤ 1)
            ∧ (dataP12 ≠ [] → MAC.maxD (([1, 2] : List ℚ).map (fun q => q / MAC.maxD [1, 2])) = 1))) :=
  ⟨⟨by decide, by decide⟩,
    c2_normalization_division_guard dataP12 "P" [1, 2] (by decide) (by decide)⟩

/-! ### Claim C8: normalization is not idempotent -/

/-- A two-record dataset whose `P` column holds -2 and -1 (reachable as raw
distances through the non-numeric penalty branch with negative ideals). -/
def dataNeg : List Row :=
  [Row.set emptyRow (MAC.distKey "P") (Value.num (-2)),
   Row.set emptyRow (MAC.distKey "P") (Value.num (-1))]

/-- C8: normalization is not idempotent.  For the dataset whose `P` column
holds -2 and -1, one application (dividing by the maximum -1) yields the
column [2, 1], and a second application re-normalizes it (dividing by the
new maximum 2) into [1, 1/2], different values with a further compressed
scale. -/
theorem c8_normalize_not_idempotent :
    (MAC.normalize_distances dataNeg regP).bind
        (fun d => MAC.getCol d (MAC.distKey "P")) = some [2, 1]
    ∧ (MAC.normalize_distances dataNeg regP).bind
        (fun d => (MAC.normalize_distances d regP).bind
          (fun d2 => MAC.getCol d2 (MAC.distKey "P"))) = some [1, 1/2]
    ∧ ([1, 1/2] : List ℚ) ≠ [2, 1] := by
  refine ⟨?_, ?_, ?_⟩
  · simp +decide [MAC.normalize_distances, MAC.normalizeOne, dataNeg, regP, MAC.getCol,
      MAC.getNum?, MAC.scaleCol, MAC.maxD, MAC.distKey, Row.set, emptyRow]
  · simp +decide [MAC.normalize_distances, MAC.normalizeOne, dataNeg, regP, MAC.getCol,
      MAC.getNum?, MAC.scaleCol, MAC.maxD, MAC.distKey, Row.set, emptyRow]
  · norm_num

/-! ### Lemmas about the binary assignment model -/

theorem filter_eq_singleton_of_unique (K : ℕ) (xi : ℕ → Bool) (j : ℕ)
    (hjK : j < K) (hjx : xi j = true) (hu : ∀ b, b < K → xi b = true → b = j) :
    (Finset.range K).filter (fun b => xi b = true) = {j} := by
  ext a
  rw [Finset.mem_filter, Finset.mem_range, Finset.mem_singleton]
  constructor
  · rintro ⟨haK, hax⟩
    exact hu a haK hax
  · rintro rfl
    exact ⟨hjK, hjx⟩

theorem exactlyOne_iff (K : ℕ) (xi : ℕ → Bool) :
    MAC.exactlyOne K xi
      ↔ ∃ j, j < K ∧ xi j = true ∧ ∀ b, b < K → xi b = true → b = j := by
  unfold MAC.exactlyOne
  constructor
  · intro h
    rcases Finset.card_eq_one.mp h with ⟨j, hj⟩
    have hjmem : j ∈ (Finset.range K).filter (fun b => xi b = true) := by
      rw [hj]
      exact Finset.mem_singleton_self j
    rw [Finset.mem_filter, Finset.mem_range] at hjmem
    refine ⟨j, hjmem.1, hjmem.2, ?_⟩
    intro b hbK hbx
    have hb : b ∈ (Finset.range K).filter (fun b => xi b = true) :=
      Finset.mem_filter.mpr ⟨Finset.mem_range.mpr hbK, hbx⟩
    rw [hj] at hb
    exact Finset.mem_singleton.mp hb
  · rintro ⟨j, hjK, hjx, hu⟩
    rw [filter_eq_singleton_of_unique K xi j hjK hjx hu]
    exact Finset.card_singleton j

theorem sum_ite_single {M : Type} [AddCommMonoid M] (K : ℕ) (xi : ℕ → Bool) (f : ℕ → M)
    (j : ℕ) (hjK : j < K) (hjx : xi j = true) (hu : ∀ b, b < K → xi b = true → b = j) :
    ∑ b in Finset.range K, (if xi b = true then f b else 0) = f j := by
  rw [← Finset.sum_filter, filter_eq_singleton_of_unique K xi j hjK hjx hu,
    Finset.sum_singleton]

theorem sum_split_at {M : Type} [AddCommMonoid M] (f g : ℕ → M) (s : Finset ℕ) (i : ℕ)
    (hi : i ∈ s) (h : ∀ a ∈ s, a ≠ i → f a = g a) :
    ∑ a in s, f a = f i + ∑ a in s.erase i, g a := by
  rw [← Finset.add_sum_erase s f hi]
  congr 1
  exact Finset.sum_congr rfl
    (fun a ha => h a (Finset.mem_of_mem_erase ha) (Finset.ne_of_mem_erase ha))

theorem clusterCount_eq_sum (N : ℕ) (x : ℕ → ℕ → Bool) (j : ℕ) :
    MAC.clusterCount N x j = ∑ i in Finset.range N, (if x i j = true then 1 else 0) := by
  unfold MAC.clusterCount
  exact Finset.card_filter _ _

theorem sum_clusterCount (N K : ℕ) (x : ℕ → ℕ → Bool)
    (hone : ∀ i < N, MAC.exactlyOne K (x i)) :
    ∑ j in Finset.range K, MAC.clusterCount N x j = N := by
  have hpt : ∀ j ∈ Finset.range K, MAC.clusterCount N x j
      = ∑ i in Finset.range N, (if x i j = true then 1 else 0) :=
    fun j _ => clusterCount_eq_sum N x j
  rw [Finset.sum_congr rfl hpt, Finset.sum_comm]
  have hrow : ∀ i ∈ Finset.range N,
      ∑ j in Finset.range K, (if x i j = true then 1 else 0) = 1 := by
    intro i hi
    rcases (exactlyOne_iff K (x i)).mp (hone i (Finset.mem_range.mp hi)) with
      ⟨j, hjK, hjx, hu⟩
    exact sum_ite_single K (x i) (fun _ => 1) j hjK hjx hu
  rw [Finset.sum_congr rfl hrow, Finset.sum_const, Finset.card_range, smul_eq_mul,
    Nat.mul_one]

/-! ### Claim C4: infeasibility when the occupancy floors exceed the records -/

/-- C4: whenever the per-cluster minimum size times the number of clusters
exceeds the number of records (e.g. fewer records than registered
clusters), no 0/1 assignment satisfies the model's constraints at all: the
abstract solve reports infeasibility and there is no solution to extract a
cluster label from. -/
theorem c4_infeasible_when_floors_exceed_records (N K : ℕ)
    (h : N < K * MAC.minArtists N K) :
    ∀ x : ℕ → ℕ → Bool, ¬ MAC.feasible N K x := by
  intro x hx
  obtain ⟨hone, hcount⟩ := hx
  have hsum := sum_clusterCount N K x hone
  have hge : K * MAC.minArtists N K ≤ ∑ j in Finset.range K, MAC.clusterCount N x j := by
    calc K * MAC.minArtists N K = ∑ _j in Finset.range K, MAC.minArtists N K := by
          rw [Finset.sum_const, Finset.card_range, smul_eq_mul]
      _ ≤ ∑ j in Finset.range K, MAC.clusterCount N x j :=
          Finset.sum_le_sum (fun j hj => hcount j (Finset.mem_range.mp hj))
  rw [hsum] at hge
  exact absurd h (Nat.not_lt.mpr hge)

/-- Witness for C4: two records, three registered clusters
(`min_artists = max(1, 2 // 3) = 1` and `3 * 1 > 2`), so the model is
infeasible. -/
theorem c4_witness :
    2 < 3 * MAC.minArtists 2 3
    ∧ ∀ x : ℕ → ℕ → Bool, ¬ MAC.feasible 2 3 x :=
  ⟨by decide, c4_infeasible_when_floors_exceed_records 2 3 (by decide)⟩

/-! ### Claim C1: every record gets one registered label, floors respected -/

theorem map_range_getD {α : Type} (N : ℕ) (f : ℕ → α) (d : α) (i : ℕ) (hi : i < N) :
    ((List.range N).map f).getD i d = f i := by
  rw [List.getD_eq_getElem?_getD, List.getElem?_map, List.getElem?_range hi]
  rfl

theorem assignRowAux_sets (xi : ℕ → Bool) (row : Row) :
    ∀ (names : List String) (k t : ℕ), t < names.length → xi (k + t) = true →
      (∀ s, s < t → xi (k + s) = false) →
      MAC.assignRowAux xi k names row = Row.set row "Cluster" (Value.str (names.getD t "")) := by
  intro names
  induction names with
  | nil =>
    intro k t ht
    simp at ht
  | cons n rest ih =>
    intro k t ht hxt hmin
    cases t with
    | zero =>
      rw [Nat.add_zero] at hxt
      rw [MAC.assignRowAux, if_pos hxt]
      rfl
    | succ s =>
      have h0 : xi k = false := by
        have := hmin 0 (Nat.succ_pos s)
        rwa [Nat.add_zero] at this
      rw [MAC.assignRowAux, if_neg (by simp [h0])]
      have hlen : s < rest.length := by simpa using ht
      have hxt1 : xi (k + 1 + s) = true := by
        have : k + 1 + s = k + (s + 1) := by omega
        rw [this]
        exact hxt
      have hmin1 : ∀ u, u < s → xi (k + 1 + u) = false := by
        intro u hu
        have : k + 1 + u = k + (u + 1) := by omega
        rw [this]
        exact hmin (u + 1) (by omega)
      rw [ih (k + 1) s hlen hxt1 hmin1]
      rfl

/-- C1: for any solution satisfying the constraints the code registers
(each record in exactly one cluster, each cluster at least
`max(1, N // K)` records), the extraction labels every record with exactly
one cluster, a name drawn from the registered profile names, and every
cluster's member count is at least the occupancy floor. -/
theorem c1_assignment_partition_and_occupancy (data : List Row) (registry : MAC.Registry)
    (x : ℕ → ℕ → Bool)
    (hfeas : MAC.feasible data.length registry.length x) :
    (∀ i, i < data.length →
      ∃ j, j < registry.length ∧ x i j = true
        ∧ (∀ b, b < registry.length → x i b = true → b = j)
        ∧ ((MAC.cluster_artists data registry x).getD i emptyRow) "Cluster"
            = some (Value.str ((registry.map (fun e => e.1)).getD j ""))
        ∧ (registry.map (fun e => e.1)).getD j "" ∈ registry.map (fun e => e.1))
    ∧ ∀ j, j < registry.length →
        MAC.minArtists data.length registry.length ≤ MAC.clusterCount data.length x j := by
  obtain ⟨hone, hcount⟩ := hfeas
  constructor
  · intro i hi
    rcases (exactlyOne_iff registry.length (x i)).mp (hone i hi) with ⟨j, hjK, hjx, hu⟩
    have hjlen : j < (registry.map (fun e => e.1)).length := by simpa using hjK
    have hmin : ∀ s, s < j → x i (0 + s) = false := by
      intro s hs
      rw [Nat.zero_add]
      cases hxs : x i s with
      | false => rfl
      | true => exact absurd (hu s (lt_trans hs hjK) hxs) (Nat.ne_of_lt hs)
    have hrow : MAC.assignRowAux (x i) 0 (registry.map (fun e => e.1)) (data.getD i emptyRow)
        = Row.set (data.getD i emptyRow) "Cluster"
            (Value.str ((registry.map (fun e => e.1)).getD j "")) :=
      assignRowAux_sets (x i) (data.getD i emptyRow) (registry.map (fun e => e.1)) 0 j
        hjlen (by rw [Nat.zero_add]; exact hjx) hmin
    refine ⟨j, hjK, hjx, hu, ?_, ?_⟩
    · unfold MAC.cluster_artists
      rw [map_range_getD data.length _ emptyRow i hi, hrow, Row.set_self]
    · rw [List.getD_eq_getElem _ "" hjlen]
      exact List.getElem_mem hjlen
  · exact hcount

/-- A two-name registry used by concrete assignment examples. -/
def regAB : MAC.Registry := [("A", ⟨[], 0⟩), ("B", ⟨[], 0⟩)]

/-- Witness for C1: two records, the two-cluster registry `regAB` and the
identity-like solution assigning record 0 to cluster A and record 1 to
cluster B, which satisfies both constraint families. -/
theorem c1_witness :
    MAC.feasible [emptyRow, emptyRow].length regAB.length (fun i j => i == j)
    ∧ ((∀ i, i < [emptyRow, emptyRow].length →
        ∃ j, j < regAB.length ∧ (i == j) = true
          ∧ (∀ b, b < regAB.length → (i == b) = true → b = j)
          ∧ ((MAC.cluster_artists [emptyRow, emptyRow] regAB (fun i j => i == j)).getD i
              emptyRow) "Cluster"
              = some (Value.str ((regAB.map (fun e => e.1)).getD j ""))
          ∧ (regAB.map (fun e => e.1)).getD j "" ∈ regAB.map (fun e => e.1))
      ∧ ∀ j, j < regAB.length →
          MAC.minArtists [emptyRow, emptyRow].length regAB.length
            ≤ MAC.clusterCount [emptyRow, emptyRow].length (fun i j => i == j) j) :=
  ⟨by decide,
    c1_assignment_partition_and_occupancy [emptyRow, emptyRow] regAB (fun i j => i == j)
      (by decide)⟩

/-! ### Claim C7: penalized clusters and the exchange argument -/

/-- The solution obtained from `x` by moving record `i` to cluster `j'`
(used in the exchange argument below). -/
def MAC.swapRow (x : ℕ → ℕ → Bool) (i j' : ℕ) : ℕ → ℕ → Bool :=
  fun a c => if a = i then decide (c = j') else x a c

theorem swapRow_ne (x : ℕ → ℕ → Bool) (i j' a : ℕ) (ha : a ≠ i) :
    MAC.swapRow x i j' a = x a := by
  funext c
  simp [MAC.swapRow, ha]

theorem swapRow_self (x : ℕ → ℕ → Bool) (i j' c : ℕ) :
    MAC.swapRow x i j' i c = decide (c = j') := by
  simp [MAC.swapRow]

theorem optimal_exchange (N K : ℕ) (D : ℕ → ℕ → ℚ) (p : ℕ → ℚ) (x : ℕ → ℕ → Bool)
    (hopt : MAC.optimal N K D p x) (i j j' : ℕ)
    (hiN : i < N) (hjK : j < K) (hj'K : j' < K) (hne : j' ≠ j) (hxj : x i j = true)
    (habove : MAC.minArtists N K < MAC.clusterCount N x j) :
    D i j + p j ≤ D i j' + p j' := by
  obtain ⟨⟨hone, hcount⟩, hmin⟩ := hopt
  rcases (exactlyOne_iff K (x i)).mp (hone i hiN) with ⟨j0, hj0K, hj0x, hu0⟩
  have hj0 : j = j0 := hu0 j hjK hxj
  subst hj0
  have hu : ∀ b, b < K → x i b = true → b = j := hu0
  have hxij' : x i j' = false := by
    cases hx : x i j' with
    | false => rfl
    | true => exact absurd (hu j' hj'K hx) hne
  have honey : ∀ a, a < N → MAC.exactlyOne K (MAC.swapRow x i j' a) := by
    intro a haN
    by_cases ha : a = i
    · subst ha
      apply (exactlyOne_iff K (MAC.swapRow x a j' a)).mpr
      refine ⟨j', hj'K, ?_, ?_⟩
      · rw [swapRow_self]
        simp
      · intro b hbK hbx
        rw [swapRow_self] at hbx
        simpa using hbx
    · rw [swapRow_ne x i j' a ha]
      exact hone a haN
  have hcounty : ∀ c, c < K →
      MAC.minArtists N K ≤ MAC.clusterCount N (MAC.swapRow x i j') c := by
    intro c hcK
    have hSx : MAC.clusterCount N x c = (if x i c = true then 1 else 0)
        + ∑ a in (Finset.range N).erase i, (if x a c = true then 1 else 0) := by
      rw [clusterCount_eq_sum]
      exact sum_split_at _ _ (Finset.range N) i (Finset.mem_range.mpr hiN)
        (fun a _ _ => rfl)
    have hSy : MAC.clusterCount N (MAC.swapRow x i j') c
        = (if MAC.swapRow x i j' i c = true then 1 else 0)
          + ∑ a in (Finset.range N).erase i, (if x a c = true then 1 else 0) := by
      rw [clusterCount_eq_sum]
      refine sum_split_at _ _ (Finset.range N) i (Finset.mem_range.mpr hiN) ?_
      intro a _ ha
      rw [swapRow_ne x i j' a ha]
    by_cases hcj : c = j
    · subst hcj
      rw [hSx, if_pos hxj] at habove
      have hyc : MAC.swapRow x i j' i c = false := by
        rw [swapRow_self]
        exact decide_eq_false (Ne.symm hne)
      rw [hSy, hyc]
      simp only [Bool.false_eq_true, if_false]
      omega
    · by_cases hcj' : c = j'
      · have hcx := hcount c hcK
        have hxic : x i c = false := by rw [hcj']; exact hxij'
        rw [hSx, hxic] at hcx
        simp only [Bool.false_eq_true, if_false] at hcx
        have hyc : MAC.swapRow x i j' i c = true := by
          rw [swapRow_self]
          simp [hcj']
        rw [hSy, hyc, if_pos rfl]
        omega
      · have hxic : x i c = false := by
          cases hx : x i c with
          | false => rfl
          | true => exact absurd (hu c hcK hx) hcj
        have hyc : MAC.swapRow x i j' i c = false := by
          rw [swapRow_self]
          exact decide_eq_false hcj'
        have hcx := hcount c hcK
        rw [hSx, hxic] at hcx
        rw [hSy, hyc]
        simpa using hcx
  have hobj := hmin (MAC.swapRow x i j') ⟨honey, hcounty⟩
  have hobjx : MAC.objective N K D p x = (D i j + p j)
      + ∑ a in (Finset.range N).erase i,
          (∑ b in Finset.range K, if x a b = true then D a b + p b else 0) := by
    unfold MAC.objective
    rw [sum_split_at (fun a => ∑ b in Finset.range K, if x a b = true then D a b + p b else 0)
      (fun a => ∑ b in Finset.range K, if x a b = true then D a b + p b else 0)
      (Finset.range N) i (Finset.mem_range.mpr hiN) (fun a _ _ => rfl)]
    congr 1
    exact sum_ite_single K (x i) (fun b => D i b + p b) j hjK hxj hu
  have hobjy : MAC.objective N K D p (MAC.swapRow x i j') = (D i j' + p j')
      + ∑ a in (Finset.range N).erase i,
          (∑ b in Finset.range K, if x a b = true then D a b + p b else 0) := by
    unfold MAC.objective
    have hsplit := sum_split_at
      (fun a => ∑ b in Finset.range K, if MAC.swapRow x i j' a b = true then D a b + p b else 0)
      (fun a => ∑ b in Finset.range K, if x a b = true then D a b + p b else 0)
      (Finset.range N) i (Finset.mem_range.mpr hiN) ?hoff
    case hoff =>
      intro a _ ha
      simp only [swapRow_ne x i j' a ha]
    rw [hsplit]
    congr 1
    refine sum_ite_single K (MAC.swapRow x i j' i) (fun b => D i b + p b) j' hj'K ?_ ?_
    · rw [swapRow_self]
      simp
    · intro b hbK hbx
      rw [swapRow_self] at hbx
      simpa using hbx
  rw [hobjx, hobjy] at hobj
  linarith

/-- C7 amended: in an optimal assignment a cluster carrying a strictly
positive penalty receives a record beyond its minimum-occupancy floor only
when, for every other cluster, that record's normalized distance plus
penalty there is at least the penalized cluster's distance plus penalty
(the floor exception and the non-strict comparison are forced by the
counterexample: the occupancy constraint can force records into the
penalized cluster regardless of cost). -/
theorem c7_penalized_cluster_beyond_floor (data : List Row) (registry : MAC.Registry)
    (x : ℕ → ℕ → Bool) (i j j' : ℕ)
    (hopt : MAC.optimal data.length registry.length
      (MAC.distMatrix data (registry.map (fun e => e.1)))
      (MAC.penalty (registry.map (fun e => e.1))) x)
    (hiN : i < data.length) (hjK : j < registry.length) (hj'K : j' < registry.length)
    (hne : j' ≠ j) (hxj : x i j = true)
    (hpen : 0 < MAC.penalty (registry.map (fun e => e.1)) j)
    (habove : MAC.minArtists data.length registry.length
      < MAC.clusterCount data.length x j) :
    MAC.distMatrix data (registry.map (fun e => e.1)) i j
        + MAC.penalty (registry.map (fun e => e.1)) j
      ≤ MAC.distMatrix data (registry.map (fun e => e.1)) i j'
        + MAC.penalty (registry.map (fun e => e.1)) j' :=
  optimal_exchange data.length registry.length _ _ x hopt i j j' hiN hjK hj'K hne hxj habove

/-- A registry with a penalized cluster: `A` and `Not Ready`. -/
def regNR : MAC.Registry := [("A", ⟨[], 0⟩), ("Not Ready", ⟨[], 0⟩)]

/-- A record whose stored normalized distances are 0 for both clusters of
`regNR`. -/
def rowZeroAB : Row :=
  Row.set (Row.set emptyRow (MAC.distKey "A") (Value.num 0))
    (MAC.distKey "Not Ready") (Value.num 0)

/-- Two records with all-zero distances. -/
def dataCE : List Row := [rowZeroAB, rowZeroAB]

/-- The identity-like solution: record 0 to cluster 0, record 1 to cluster 1. -/
def xId : ℕ → ℕ → Bool := fun i j => i == j

theorem c7_objective_lower (y : ℕ → ℕ → Bool) (hy : MAC.feasible 2 2 y) :
    10 ≤ MAC.objective 2 2 (MAC.distMatrix dataCE (regNR.map (fun e => e.1)))
      (MAC.penalty (regNR.map (fun e => e.1))) y := by
  obtain ⟨hone, hcount⟩ := hy
  have hc1 : 1 ≤ MAC.clusterCount 2 y 1 := by
    have h := hcount 1 (by norm_num)
    have hmin1 : MAC.minArtists 2 2 = 1 := by decide
    rw [hmin1] at h
    exact h
  have hstep : ∀ i ∈ Finset.range 2,
      (if y i 1 = true then (10:ℚ) else 0)
        ≤ ∑ j in Finset.range 2, if y i j = true then
            MAC.distMatrix dataCE (regNR.map (fun e => e.1)) i j
              + MAC.penalty (regNR.map (fun e => e.1)) j else 0 := by
    intro i hi
    have hi2 : i < 2 := Finset.mem_range.mp hi
    rw [Finset.sum_range_succ, Finset.sum_range_succ, Finset.sum_range_zero, zero_add]
    have hD0 : MAC.distMatrix dataCE (regNR.map (fun e => e.1)) i 0 = 0 := by
      interval_cases i
      · decide
      · decide
    have hD1 : MAC.distMatrix dataCE (regNR.map (fun e => e.1)) i 1 = 0 := by
      interval_cases i
      · decide
      · decide
    have hp0 : MAC.penalty (regNR.map (fun e => e.1)) 0 = 0 := by decide
    have hp1 : MAC.penalty (regNR.map (fun e => e.1)) 1 = 10 := by decide
    rw [hD0, hD1, hp0, hp1]
    cases hy0 : y i 0 <;> cases hy1 : y i 1 <;> simp
  have hsum1 : (10:ℚ) ≤ ∑ i in Finset.range 2, if y i 1 = true then (10:ℚ) else 0 := by
    have hpos : 0 < ((Finset.range 2).filter (fun i => y i 1 = true)).card :=
      lt_of_lt_of_le Nat.zero_lt_one hc1
    obtain ⟨i0, hi0⟩ := Finset.card_pos.mp hpos
    rw [Finset.mem_filter] at hi0
    have hrw : (10:ℚ) = if y i0 1 = true then (10:ℚ) else 0 := by rw [if_pos hi0.2]
    nth_rewrite 1 [hrw]
    exact @Finset.single_le_sum ℕ ℚ _ (fun i => if y i 1 = true then (10:ℚ) else 0)
      (Finset.range 2) (fun i _ => by dsimp only; split <;> norm_num) i0 hi0.1
  unfold MAC.objective
  exact le_trans hsum1 (Finset.sum_le_sum hstep)

/-- C7 as stated is false: with two records, all normalized distances 0 and
the penalized cluster `Not Ready`, the assignment putting record 1 into
`Not Ready` is optimal (the occupancy floor forces one record there), yet
cluster `A`'s distance for that record, 0, does not exceed the penalty
differential 0 + 10. -/
theorem c7_counterexample :
    MAC.optimal dataCE.length regNR.length
      (MAC.distMatrix dataCE (regNR.map (fun e => e.1)))
      (MAC.penalty (regNR.map (fun e => e.1))) xId
    ∧ xId 1 1 = true
    ∧ 0 < MAC.penalty (regNR.map (fun e => e.1)) 1
    ∧ ¬ (MAC.distMatrix dataCE (regNR.map (fun e => e.1)) 1 1
            + MAC.penalty (regNR.map (fun e => e.1)) 1
          < MAC.distMatrix dataCE (regNR.map (fun e => e.1)) 1 0) := by
  have hD11 : MAC.distMatrix dataCE (regNR.map (fun e => e.1)) 1 1 = 0 := by decide
  have hD10 : MAC.distMatrix dataCE (regNR.map (fun e => e.1)) 1 0 = 0 := by decide
  have hD00 : MAC.distMatrix dataCE (regNR.map (fun e => e.1)) 0 0 = 0 := by decide
  have hp0 : MAC.penalty (regNR.map (fun e => e.1)) 0 = 0 := by decide
  have hp1 : MAC.penalty (regNR.map (fun e => e.1)) 1 = 10 := by decide
  refine ⟨⟨by decide, ?_⟩, by decide, ?_, ?_⟩
  · intro y hy
    have h10 := c7_objective_lower y hy
    have hx10 : MAC.objective 2 2 (MAC.distMatrix dataCE (regNR.map (fun e => e.1)))
        (MAC.penalty (regNR.map (fun e => e.1))) xId = 10 := by
      unfold MAC.objective
      rw [Finset.sum_range_succ, Finset.sum_range_succ, Finset.sum_range_zero, zero_add]
      rw [Finset.sum_range_succ, Finset.sum_range_succ, Finset.sum_range_zero, zero_add]
      rw [Finset.sum_range_succ, Finset.sum_range_succ, Finset.sum_range_zero, zero_add]
      have hx00 : xId 0 0 = true := by decide
      have hx01 : xId 0 1 = false := by decide
      have hx10b : xId 1 0 = false := by decide
      have hx11 : xId 1 1 = true := by decide
      rw [hx00, hx01, hx10b, hx11]
      simp only [if_pos rfl, Bool.false_eq_true, if_false]
      rw [hD00, hD11, hp0, hp1]
      norm_num
    exact le_of_eq_of_le hx10 h10
  · rw [hp1]
    norm_num
  · rw [hD11, hD10, hp1]
    norm_num

/-- A record whose stored distances are 10 for cluster `A` and 0 for
`Not Ready`, so with the penalty both clusters cost 10. -/
def rowTen : Row :=
  Row.set (Row.set emptyRow (MAC.distKey "A") (Value.num 10))
    (MAC.distKey "Not Ready") (Value.num 0)

/-- Three identical such records. -/
def dataW : List Row := [rowTen, rowTen, rowTen]

/-- Record 0 to cluster 0, records 1 and 2 to cluster 1. -/
def xW : ℕ → ℕ → Bool := fun i j => if i = 0 then j == 0 else j == 1

theorem c7w_objective (y : ℕ → ℕ → Bool) (hone : ∀ i, i < 3 → MAC.exactlyOne 2 (y i)) :
    MAC.objective 3 2 (MAC.distMatrix dataW (regNR.map (fun e => e.1)))
      (MAC.penalty (regNR.map (fun e => e.1))) y = 30 := by
  have hDA : ∀ i, i < 3 → MAC.distMatrix dataW (regNR.map (fun e => e.1)) i 0 = 10 := by
    decide
  have hDN : ∀ i, i < 3 → MAC.distMatrix dataW (regNR.map (fun e => e.1)) i 1 = 0 := by
    decide
  have hp0 : MAC.penalty (regNR.map (fun e => e.1)) 0 = 0 := by decide
  have hp1 : MAC.penalty (regNR.map (fun e => e.1)) 1 = 10 := by decide
  have hcost : ∀ i, i < 3 → ∀ j, j < 2 →
      MAC.distMatrix dataW (regNR.map (fun e => e.1)) i j
        + MAC.penalty (regNR.map (fun e => e.1)) j = 10 := by
    intro i hi j hj
    interval_cases j
    · rw [hDA i hi, hp0]; norm_num
    · rw [hDN i hi, hp1]; norm_num
  have hrow : ∀ i ∈ Finset.range 3,
      (∑ j in Finset.range 2, if y i j = true then
          MAC.distMatrix dataW (regNR.map (fun e => e.1)) i j
            + MAC.penalty (regNR.map (fun e => e.1)) j else 0) = 10 := by
    intro i hi
    have hi3 : i < 3 := Finset.mem_range.mp hi
    rcases (exactlyOne_iff 2 (y i)).mp (hone i hi3) with ⟨j, hjK, hjx, hu⟩
    rw [sum_ite_single 2 (y i)
      (fun b => MAC.distMatrix dataW (regNR.map (fun e => e.1)) i b
        + MAC.penalty (regNR.map (fun e => e.1)) b) j hjK hjx hu]
    exact hcost i hi3 j hjK
  unfold MAC.objective
  rw [Finset.sum_congr rfl hrow, Finset.sum_const, Finset.card_range]
  norm_num

theorem c7w_optimal :
    MAC.optimal 3 2 (MAC.distMatrix dataW (regNR.map (fun e => e.1)))
      (MAC.penalty (regNR.map (fun e => e.1))) xW := by
  constructor
  · decide
  · intro y hy
    have hx : MAC.objective 3 2 (MAC.distMatrix dataW (regNR.map (fun e => e.1)))
        (MAC.penalty (regNR.map (fun e => e.1))) xW = 30 :=
      c7w_objective xW (fun i hi => ((by decide : MAC.feasible 3 2 xW)).1 i hi)
    have hyv : MAC.objective 3 2 (MAC.distMatrix dataW (regNR.map (fun e => e.1)))
        (MAC.penalty (regNR.map (fun e => e.1))) y = 30 :=
      c7w_objective y (fun i hi => hy.1 i hi)
    rw [hx, hyv]

/-- Witness for the amended C7: three records, each costing 10 in either
cluster, under the solution sending records 1 and 2 to the penalized
cluster (one beyond its floor); the exchange bound holds with equality. -/
theorem c7_witness :
    (MAC.optimal 3 2 (MAC.distMatrix dataW (regNR.map (fun e => e.1)))
        (MAC.penalty (regNR.map (fun e => e.1))) xW
      ∧ xW 1 1 = true
      ∧ 0 < MAC.penalty (regNR.map (fun e => e.1)) 1
      ∧ MAC.minArtists 3 2 < MAC.clusterCount 3 xW 1)
    ∧ MAC.distMatrix dataW (regNR.map (fun e => e.1)) 1 1
        + MAC.penalty (regNR.map (fun e => e.1)) 1
      ≤ MAC.distMatrix dataW (regNR.map (fun e => e.1)) 1 0
        + MAC.penalty (regNR.map (fun e => e.1)) 0 :=
  ⟨⟨c7w_optimal, by decide, by decide, by decide⟩,
    c7_penalized_cluster_beyond_floor dataW regNR xW 1 1 0 c7w_optimal (by decide) (by decide)
      (by decide) (by decide) (by decide) (by decide) (by decide)⟩

/-! ### Claim C10: the per-profile weight scalars are never read -/

theorem setDistances_congr : ∀ (r1 r2 : MAC.Registry),
    r1.map (fun e => (e.1, e.2.profile)) = r2.map (fun e => (e.1, e.2.profile)) →
    ∀ row, MAC.setDistances r1 row = MAC.setDistances r2 row := by
  intro r1
  induction r1 with
  | nil =>
    intro r2 h row
    cases r2 with
    | nil => rfl
    | cons b t2 => simp at h
  | cons a t ih =>
    intro r2 h row
    cases r2 with
    | nil => simp at h
    | cons b t2 =>
      simp only [List.map_cons, List.cons.injEq, Prod.mk.injEq] at h
      obtain ⟨⟨hname, hprof⟩, htail⟩ := h
      unfold MAC.setDistances
      simp only [List.foldl_cons]
      rw [hname, hprof]
      exact ih t2 htail _

theorem normalize_distances_congr : ∀ (r1 r2 : MAC.Registry),
    r1.map (fun e => e.1) = r2.map (fun e => e.1) →
    ∀ data, MAC.normalize_distances data r1 = MAC.normalize_distances data r2 := by
  intro r1
  induction r1 with
  | nil =>
    intro r2 h data
    cases r2 with
    | nil => rfl
    | cons b t2 => simp at h
  | cons a t ih =>
    intro r2 h data
    cases r2 with
    | nil => simp at h
    | cons b t2 =>
      simp only [List.map_cons, List.cons.injEq] at h
      obtain ⟨hname, htail⟩ := h
      show (match MAC.normalizeOne data a.1 with
        | some d => MAC.normalize_distances d t
        | none => none)
        = (match MAC.normalizeOne data b.1 with
        | some d => MAC.normalize_distances d t2
        | none => none)
      rw [hname]
      cases MAC.normalizeOne data b.1 with
      | none => rfl
      | some d => exact ih t2 htail d

/-- C10: the per-profile `weight` scalars of the registry are dead
configuration in the multi-profile variant: two registries that agree on
names and ideal-value profiles and differ only in their `weight` fields
yield identical distance fields, an identical optimization model (feasible
region and objective), and identical cluster labels, because neither the
distance computation nor the solver model reads `weight`. -/
theorem c10_profile_weights_unused (data : List Row) (r1 r2 : MAC.Registry)
    (h : r1.map (fun e => (e.1, e.2.profile)) = r2.map (fun e => (e.1, e.2.profile))) :
    MAC.calculate_all_distances data r1 = MAC.calculate_all_distances data r2
    ∧ (∀ x, MAC.cluster_artists data r1 x = MAC.cluster_artists data r2 x)
    ∧ (∀ x, MAC.feasible data.length r1.length x ↔ MAC.feasible data.length r2.length x)
    ∧ (∀ x, MAC.objective data.length r1.length
          (MAC.distMatrix data (r1.map (fun e => e.1)))
          (MAC.penalty (r1.map (fun e => e.1))) x
        = MAC.objective data.length r2.length
          (MAC.distMatrix data (r2.map (fun e => e.1)))
          (MAC.penalty (r2.map (fun e => e.1))) x) := by
  have hnames : r1.map (fun e => e.1) = r2.map (fun e => e.1) := by
    have h2 := congrArg (List.map Prod.fst) h
    simpa [List.map_map, Function.comp] using h2
  have hK : r1.length = r2.length := by
    have h2 := congrArg List.length h
    simpa using h2
  refine ⟨?_, ?_, ?_, ?_⟩
  · unfold MAC.calculate_all_distances
    rw [List.map_congr_left (fun row _ => setDistances_congr r1 r2 h row),
      normalize_distances_congr r1 r2 hnames]
  · intro x
    unfold MAC.cluster_artists
    rw [hnames]
  · intro x
    rw [hK]
  · intro x
    rw [hnames, hK]

/-- Two one-profile registries differing only in the dead `weight` field. -/
def regW1 : MAC.Registry := [("P", ⟨[("g", 1)], 1⟩)]

/-- Like `regW1` with weight 5 instead of 1. -/
def regW5 : MAC.Registry := [("P", ⟨[("g", 1)], 5⟩)]

/-- Witness for C10 at a one-record dataset and the two registries that
differ only in the profile weight. -/
theorem c10_witness :
    regW1.map (fun e => (e.1, e.2.profile)) = regW5.map (fun e => (e.1, e.2.profile))
    ∧ (MAC.calculate_all_distances [rowA] regW1 = MAC.calculate_all_distances [rowA] regW5
      ∧ (∀ x, MAC.cluster_artists [rowA] regW1 x = MAC.cluster_artists [rowA] regW5 x)
      ∧ (∀ x, MAC.feasible [rowA].length regW1.length x
            ↔ MAC.feasible [rowA].length regW5.length x)
      ∧ (∀ x, MAC.objective [rowA].length regW1.length
            (MAC.distMatrix [rowA] (regW1.map (fun e => e.1)))
            (MAC.penalty (regW1.map (fun e => e.1))) x
          = MAC.objective [rowA].length regW5.length
            (MAC.distMatrix [rowA] (regW5.map (fun e => e.1)))
            (MAC.penalty (regW5.map (fun e => e.1))) x)) :=
  ⟨by decide, c10_profile_weights_unused [rowA] regW1 regW5 (by decide)⟩

/-! ### Claim C9: the pipeline writes only the distance and cluster fields -/

theorem normalizeOne_eq (data : List Row) (name : String) (out : List Row)
    (h : MAC.normalizeOne data name = some out) :
    ∃ col, MAC.getCol data (MAC.distKey name) = some col
      ∧ out = List.zipWith
          (fun r q => Row.set r (MAC.distKey name) (Value.num (q / MAC.maxD col)))
          data col := by
  cases hcol : MAC.getCol data (MAC.distKey name) with
  | none => simp [MAC.normalizeOne, hcol] at h
  | some col =>
    simp only [MAC.normalizeOne, hcol] at h
    by_cases h0 : MAC.maxD col = 0
    · rw [if_pos h0] at h; cases h
    · rw [if_neg h0] at h
      rw [scaleCol_eq (MAC.maxD col) (MAC.distKey name) data col hcol] at h
      exact ⟨col, rfl, (Option.some_inj.mp h).symm⟩

theorem zipWith_set_frame (k k' : String) (hk : k' ≠ k) (m : ℚ) :
    ∀ (data : List Row) (col : List ℚ), col.length = data.length → ∀ i,
      ((List.zipWith (fun r q => Row.set r k (Value.num (q / m))) data col).getD i
        emptyRow) k' = (data.getD i emptyRow) k' := by
  intro data
  induction data with
  | nil =>
    intro col hlen i
    have : col = [] := List.length_eq_zero.mp hlen
    subst this
    rfl
  | cons r rest ih =>
    intro col hlen i
    cases col with
    | nil => simp at hlen
    | cons q qs =>
      cases i with
      | zero =>
        simp only [List.zipWith_cons_cons, List.getD_cons_zero]
        exact Row.set_ne r k k' _ hk
      | succ n =>
        simp only [List.zipWith_cons_cons, List.getD_cons_succ]
        exact ih qs (by simpa using hlen) n

theorem normalize_distances_frame (k : String) :
    ∀ (registry : MAC.Registry) (data out : List Row),
      MAC.normalize_distances data registry = some out →
      (∀ e ∈ registry, k ≠ MAC.distKey e.1) →
      out.length = data.length
      ∧ ∀ i, (out.getD i emptyRow) k = (data.getD i emptyRow) k := by
  intro registry
  induction registry with
  | nil =>
    intro data out h _
    have : data = out := Option.some_inj.mp h
    subst this
    exact ⟨rfl, fun i => rfl⟩
  | cons e rest ih =>
    intro data out h hk
    unfold MAC.normalize_distances at h
    cases hn : MAC.normalizeOne data e.1 with
    | none => rw [hn] at h; cases h
    | some d1 =>
      rw [hn] at h
      obtain ⟨hlen2, hpt2⟩ := ih d1 out h (fun e2 he2 => hk e2 (List.mem_cons_of_mem _ he2))
      obtain ⟨col, hcol, hd1⟩ := normalizeOne_eq data e.1 d1 hn
      have hcl : col.length = data.length := getCol_length (MAC.distKey e.1) data col hcol
      have hlen1 : d1.length = data.length := by
        rw [hd1, List.length_zipWith, hcl, min_self]
      have hke : k ≠ MAC.distKey e.1 := hk e (List.mem_cons_self e rest)
      have hpt1 : ∀ i, (d1.getD i emptyRow) k = (data.getD i emptyRow) k := by
        intro i
        rw [hd1]
        exact zipWith_set_frame (MAC.distKey e.1) k hke (MAC.maxD col) data col hcl i
      exact ⟨hlen1 ▸ hlen2, fun i => (hpt2 i).trans (hpt1 i)⟩

theorem setDistances_frame (k : String) :
    ∀ (registry : MAC.Registry), (∀ e ∈ registry, k ≠ MAC.distKey e.1) →
      ∀ row, MAC.setDistances registry row k = row k := by
  intro registry
  induction registry with
  | nil => intro _ row; rfl
  | cons e rest ih =>
    intro hk row
    unfold MAC.setDistances
    simp only [List.foldl_cons]
    have htail := ih (fun e2 he2 => hk e2 (List.mem_cons_of_mem _ he2))
    have h1 : MAC.setDistances rest
        (Row.set row (MAC.distKey e.1) (Value.num (MAC.calculate_distance row e.2.profile))) k
        = Row.set row (MAC.distKey e.1)
            (Value.num (MAC.calculate_distance row e.2.profile)) k := htail _
    have h2 : Row.set row (MAC.distKey e.1)
        (Value.num (MAC.calculate_distance row e.2.profile)) k = row k :=
      Row.set_ne row (MAC.distKey e.1) k _ (hk e (List.mem_cons_self e rest))
    exact h1.trans h2

theorem map_setDistances_frame (registry : MAC.Registry) (k : String)
    (hk : ∀ e ∈ registry, k ≠ MAC.distKey e.1) :
    ∀ (data : List Row) (i : ℕ),
      ((data.map (MAC.setDistances registry)).getD i emptyRow) k
        = (data.getD i emptyRow) k := by
  intro data
  induction data with
  | nil => intro i; rfl
  | cons r rest ih =>
    intro i
    cases i with
    | zero =>
      simp only [List.map_cons, List.getD_cons_zero]
      exact setDistances_frame k registry hk r
    | succ n =>
      simp only [List.map_cons, List.getD_cons_succ]
      exact ih n

theorem assignRowAux_frame (xi : ℕ → Bool) (k : String) (hk : k ≠ "Cluster") :
    ∀ (names : List String) (j : ℕ) (row : Row),
      (MAC.assignRowAux xi j names row) k = row k := by
  intro names
  induction names with
  | nil => intro j row; rfl
  | cons n rest ih =>
    intro j row
    rw [MAC.assignRowAux]
    by_cases hx : xi j = true
    · rw [if_pos hx]
      exact Row.set_ne row "Cluster" k _ hk
    · rw [if_neg hx]
      exact ih (j + 1) row

theorem cluster_artists_frame (data : List Row) (registry : MAC.Registry)
    (x : ℕ → ℕ → Bool) (k : String) (hk : k ≠ "Cluster") (i : ℕ) :
    ((MAC.cluster_artists data registry x).getD i emptyRow) k
      = (data.getD i emptyRow) k := by
  by_cases hi : i < data.length
  · unfold MAC.cluster_artists
    rw [map_range_getD data.length _ emptyRow i hi]
    exact assignRowAux_frame (x i) k hk (registry.map (fun e => e.1)) 0 (data.getD i emptyRow)
  · have hlen : data.length ≤ i := Nat.le_of_not_lt hi
    have h1 : (MAC.cluster_artists data registry x).length ≤ i := by
      unfold MAC.cluster_artists
      rw [List.length_map, List.length_range]
      exact hlen
    rw [List.getD_eq_default _ _ h1, List.getD_eq_default _ _ hlen]

theorem ac_map_frame (ideal weights : List (String × ℚ)) (k : String)
    (hki : k ≠ "Distance_to_Ideal") :
    ∀ (data : List Row) (i : ℕ),
      ((AC.calculate_all_distances data ideal weights).getD i emptyRow) k
        = (data.getD i emptyRow) k := by
  intro data
  induction data with
  | nil => intro i; rfl
  | cons r rest ih =>
    intro i
    cases i with
    | zero =>
      simp only [AC.calculate_all_distances, List.map_cons, List.getD_cons_zero]
      exact Row.set_ne r "Distance_to_Ideal" k _ hki
    | succ n =>
      simp only [AC.calculate_all_distances, List.map_cons, List.getD_cons_succ]
      exact ih n

/-- C9 amended: the pipeline only writes the per-profile distance fields
(`Distance_to_<name>`, or `Distance_to_Ideal` in the single-profile
variant) and the `Cluster` field: every field under any other name keeps
its original value through distance computation, normalization and
assignment.  (The counterexample forces excluding the reserved names
themselves: a record arriving with such a field has it overwritten.) -/
theorem c9_pipeline_frame (data : List Row) (registry : MAC.Registry)
    (x : ℕ → ℕ → Bool) (out : List Row)
    (hout : MAC.calculate_all_distances data registry = some out)
    (k : String) (hkc : k ≠ "Cluster") (hkd : ∀ e ∈ registry, k ≠ MAC.distKey e.1)
    (ideal weights : List (String × ℚ)) (hki : k ≠ "Distance_to_Ideal") :
    (∀ i, ((MAC.cluster_artists out registry x).getD i emptyRow) k
        = (data.getD i emptyRow) k)
    ∧ ∀ i, ((AC.calculate_all_distances data ideal weights).getD i emptyRow) k
        = (data.getD i emptyRow) k := by
  constructor
  · intro i
    unfold MAC.calculate_all_distances at hout
    obtain ⟨hlen, hpt⟩ := normalize_distances_frame k registry _ out hout hkd
    exact (cluster_artists_frame out registry x k hkc i).trans
      ((hpt i).trans (map_setDistances_frame registry k hkd data i))
  · exact ac_map_frame ideal weights k hki data

/-- A record that already carries a `Cluster` field, plus a feature `g`. -/
def rowC9 : Row :=
  Row.set (Row.set emptyRow "g" (Value.num 5)) "Cluster" (Value.str "precious")

/-- A one-profile registry whose profile uses feature `g`. -/
def regG : MAC.Registry := [("P", ⟨[("g", 0)], 0⟩)]

/-- C9 as stated is false: a record arriving with a field named `Cluster`
(value `"precious"`) does not keep it — the assignment step overwrites it
with the chosen profile name `P`. -/
theorem c9_counterexample :
    rowC9 "Cluster" = some (Value.str "precious")
    ∧ (MAC.calculate_all_distances [rowC9] regG).map
        (fun out =>
          ((MAC.cluster_artists out regG (fun _ _ => true)).getD 0 emptyRow) "Cluster")
      = some (some (Value.str "P")) := by
  constructor
  · rfl
  · simp +decide [MAC.calculate_all_distances, MAC.normalize_distances, MAC.normalizeOne,
      MAC.setDistances, MAC.calculate_distance, MAC.term, MAC.getCol, MAC.getNum?,
      MAC.scaleCol, MAC.maxD, MAC.distKey, MAC.cluster_artists, MAC.assignRowAux,
      Row.set, Row.getD0, emptyRow, rowC9, regG, Value.toFloat?]

/-- Witness for the amended C9: the one-record dataset `[{"a": 5}]`, the
registry `regW1`, and the field name `a`, preserved through both pipelines. -/
theorem c9_witness :
    ∃ out, MAC.calculate_all_distances [rowA] regW1 = some out
      ∧ (∀ i, ((MAC.cluster_artists out regW1 (fun _ _ => true)).getD i emptyRow) "a"
          = (([rowA] : List Row).getD i emptyRow) "a")
      ∧ ∀ i, ((AC.calculate_all_distances [rowA] [("a", 3)] [("a", 2)]).getD i emptyRow) "a"
          = (([rowA] : List Row).getD i emptyRow) "a" := by
  obtain ⟨out, hout⟩ : ∃ out, MAC.calculate_all_distances [rowA] regW1 = some out := by
    simp +decide [MAC.calculate_all_distances, MAC.normalize_distances, MAC.normalizeOne,
      MAC.setDistances, MAC.calculate_distance, MAC.term, MAC.getCol, MAC.getNum?,
      MAC.scaleCol, MAC.maxD, MAC.distKey, Row.set, Row.getD0, emptyRow, rowA, regW1,
      Value.toFloat?]
  obtain ⟨h1, h2⟩ := c9_pipeline_frame [rowA] regW1 (fun _ _ => true) out hout "a"
    (by decide) (by decide) [("a", 3)] [("a", 2)] (by decide)
  exact ⟨out, hout, h1, h2⟩
